import Mathlib

/-!
Verification development for the voxel world editor and region serializer
(`world_editor.rs`): the in-memory sparse write buffer
(world → region → chunk → section), the palette bit-packing encoder, the
editor façade (`set_block`, `check_for_block`, `set_sign`) and the per-chunk
patch applied on save.

Modelling conventions:
* Rust `i32`/`i64` coordinates are `Int`; arithmetic right shift `x >> k`
  is floor division `x / 2^k` (Lean's `Int` division is Euclidean, which
  coincides with floor division for positive divisors), and `x & (2^k - 1)`
  is `x % 2^k` (Euclidean remainder, always in `[0, 2^k)`).
* The packed 64-bit words of the palette encoder are represented by their
  bit patterns as `Nat` values `< 2^64` (the encoder never overflows a
  word, which the proofs establish).
* Hash maps (`FnvHashMap`, `HashMap`) are association lists with
  lookup `alGet` and insert-or-replace `alPut`; `entry(k).or_default()`
  is `(alGet m k).getD default` followed by a put of the updated value.
* A Rust panic (a failed `try_into().unwrap()`) is `Option.none`; an
  operation that cannot panic returns `some`.
-/

/-- Modelled from the spec: the block catalog (`block_definitions`) is not
part of the analysed sources; per the spec, a block is an opaque value
"totally ordered and equatable by identifier", so it is represented by its
stable numeric identifier. -/
structure Block where
  id : Nat
deriving DecidableEq, Repr

/-- Modelled from the spec: the distinguished `AIR` sentinel marking "no
modification made here yet"; it compares equal only to itself. -/
def AIR : Block := ⟨0⟩

/-- Modelled from the spec: the sign block installed by `set_sign`; a
block kind distinct from `AIR`. -/
def SIGN : Block := ⟨1⟩

/-- Modelled from the spec: the block catalog's display name for a block
(`Block::name`); only its presence in the emitted palette matters to the
claims, never its contents. -/
def Block.name (b : Block) : String := toString b.id

/-- NBT value tree (`fastnbt::Value`), restricted to the constructors the
analysed code constructs or inspects (byte, int, long, string, list,
compound, long-array); compounds are association lists. -/
inductive Value where
  | byte (b : Int)
  | int (i : Int)
  | long (l : Int)
  | string (s : String)
  | list (vs : List Value)
  | compound (m : List (String × Value))
  | longArray (ws : List Int)

/-- Modelled from the spec: the block catalog's optional NBT property map
for a block (`Block::properties`); opaque to every claim. -/
def Block.properties (_ : Block) : Option Value := none

/-! ### Association lists standing in for hash maps -/

/-- Lookup in an association list (hash-map `get`). -/
def alGet {κ ν : Type} [DecidableEq κ] : List (κ × ν) → κ → Option ν
  | [], _ => none
  | (k, v) :: rest, key => if k = key then some v else alGet rest key

/-- Insert-or-replace in an association list (hash-map `insert`). -/
def alPut {κ ν : Type} [DecidableEq κ] : List (κ × ν) → κ → ν → List (κ × ν)
  | [], key, val => [(key, val)]
  | (k, v) :: rest, key, val =>
    if k = key then (k, val) :: rest else (k, v) :: alPut rest key val

theorem alGet_alPut_same {κ ν : Type} [DecidableEq κ] (m : List (κ × ν)) (k : κ) (v : ν) :
    alGet (alPut m k v) k = some v := by
  induction m with
  | nil => simp [alGet, alPut]
  | cons kv rest ih =>
    obtain ⟨k', v'⟩ := kv
    by_cases h : k' = k <;> simp [alGet, alPut, h, ih]

theorem alGet_alPut_ne {κ ν : Type} [DecidableEq κ] (m : List (κ × ν)) (k k' : κ) (v : ν)
    (h : k ≠ k') : alGet (alPut m k v) k' = alGet m k' := by
  induction m with
  | nil => simp [alGet, alPut, h]
  | cons kv rest ih =>
    obtain ⟨k₀, v₀⟩ := kv
    by_cases h₀ : k₀ = k
    · subst h₀
      simp [alGet, alPut, h]
    · simp only [alPut, if_neg h₀]
      by_cases h₁ : k₀ = k' <;> simp [alGet, h₁, ih]

/-! ### Coordinate decomposition (`WorldToModify::get_block` / `set_block`) -/

/-- `x >> 4` of the source: global coordinate to chunk coordinate. -/
def chunkCoord (x : Int) : Int := x / 16

/-- `cx >> 5` of the source: chunk coordinate to region coordinate. -/
def regionCoord (cx : Int) : Int := cx / 32

/-- C7: the coordinate decomposition into region index `(x>>4)>>5`, local
chunk index `(x>>4)&31` and local block coordinate `x&15` recomposes to `x`
for every signed 32-bit `x` (and likewise for `z`, which uses the same
computation). -/
theorem coord_decompose_roundtrip (x : Int)
    (_h : -(2 ^ 31) ≤ x ∧ x < 2 ^ 31) :
    (regionCoord (chunkCoord x) * 32 + chunkCoord x % 32) * 16 + x % 16 = x := by
  unfold regionCoord chunkCoord
  omega

/-- Witness for C7 at `x = -123456`. -/
theorem coord_decompose_roundtrip_witness :
    (-(2 ^ 31) ≤ (-123456 : Int) ∧ (-123456 : Int) < 2 ^ 31) ∧
      (regionCoord (chunkCoord (-123456)) * 32 + chunkCoord (-123456) % 32) * 16 +
        (-123456 : Int) % 16 = -123456 :=
  ⟨by decide, coord_decompose_roundtrip (-123456) (by decide)⟩

/-! ### Section buffer and palette encoder (`SectionToModify`) -/

/-- The dense 16×16×16 section buffer `SectionToModify`; the Rust
`[Block; 4096]` array is a function on cell indices (only indices
`< 4096` are ever produced by `index`). -/
structure SectionToModify where
  blocks : Nat → Block

/-- `SectionToModify::index`: cell index `(y % 16) * 256 + z * 16 + x`. -/
def SectionToModify.index (x y z : Nat) : Nat := y % 16 * 256 + z * 16 + x

/-- `SectionToModify::get_block`: the block if not `AIR`, else absent. -/
def SectionToModify.get_block (s : SectionToModify) (x y z : Nat) : Option Block :=
  let b := s.blocks (SectionToModify.index x y z)
  if b = AIR then none else some b

/-- `SectionToModify::set_block`: unconditional overwrite of one cell. -/
def SectionToModify.set_block (s : SectionToModify) (x y z : Nat) (block : Block) :
    SectionToModify :=
  ⟨fun i => if i = SectionToModify.index x y z then block else s.blocks i⟩

/-- The `[Block; 4096]` array in index order (`self.blocks.to_vec()` /
`for block in &self.blocks`). -/
def SectionToModify.toList (s : SectionToModify) : List Block :=
  (List.range 4096).map s.blocks

/-- Rust `Vec::dedup`: removes consecutive repeated elements. -/
def dedupAdj : List Block → List Block
  | [] => []
  | [a] => [a]
  | a :: b :: rest => if a = b then dedupAdj (b :: rest) else a :: dedupAdj (b :: rest)

/-- The per-section palette: the block list sorted by the catalog order and
deduplicated (`palette.sort(); palette.dedup()`). -/
def sectionPalette (blocks : List Block) : List Block :=
  dedupAdj (blocks.mergeSort (fun a b => Nat.ble a.id b.id))

/-- First index of a block in a list; `palette_lookup` is a hash map built
from the enumerated palette, and since the palette is duplicate-free the
map sends each entry to its unique index, the first one. -/
def idxOf (b : Block) : List Block → Nat
  | [] => 0
  | q :: rest => if q = b then 0 else idxOf b rest + 1

/-- The `palette_lookup` map of `to_section` as a function. -/
def palette_lookup (palette : List Block) (b : Block) : Nat := idxOf b palette

/-- The `bits_per_block` loop of `to_section`, starting from `b`:
`while (1 << bits_per_block) < palette.len() { bits_per_block += 1 }`. -/
def bitsPerBlockFrom (n b : Nat) : Nat :=
  if 2 ^ b < n then bitsPerBlockFrom n (b + 1) else b
termination_by n - b
decreasing_by
  have hb : b < 2 ^ b := Nat.lt_two_pow b
  omega

/-- `bits_per_block` for a palette of `n` entries (the loop starts at the
format minimum 4). -/
def bitsPerBlock (n : Nat) : Nat := bitsPerBlockFrom n 4

/-- The running state of the packing loop of `to_section`: the completed
words `data`, the word being filled `cur` (a 64-bit pattern as `Nat`), and
the bit cursor `cur_idx`. -/
structure PackState where
  data : List Nat
  cur : Nat
  curIdx : Nat

/-- One iteration of the packing loop: flush the current word when the
next `bpb` bits would cross the 64-bit boundary, then or the palette index
in LSB-first at the cursor. -/
def packStep (bpb : Nat) (s : PackState) (p : Nat) : PackState :=
  let s' := if s.curIdx + bpb > 64 then PackState.mk (s.data ++ [s.cur]) 0 0 else s
  ⟨s'.data, s'.cur ||| (p <<< s'.curIdx), s'.curIdx + bpb⟩

/-- The whole packing loop of `to_section`, including the final push of a
partially-filled word (`if cur_idx > 0 { data.push(cur) }`). -/
def packIndices (bpb : Nat) (ps : List Nat) : List Nat :=
  let s := ps.foldl (packStep bpb) ⟨[], 0, 0⟩
  if s.curIdx > 0 then s.data ++ [s.cur] else s.data

/-- The packed long-array `data` emitted by `to_section` for a section
content list. -/
def sectionData (blocks : List Block) : List Nat :=
  packIndices (bitsPerBlock (sectionPalette blocks).length)
    (blocks.map (palette_lookup (sectionPalette blocks)))

/-- `PaletteItem` of the section NBT schema. -/
structure PaletteItem where
  name : String
  properties : Option Value

/-- `Blockstates` of the section NBT schema; the packed words are kept as
64-bit patterns (`Nat`). -/
structure Blockstates where
  palette : List PaletteItem
  data : Option (List Nat)
  other : List (String × Value)

/-- `Section` of the section NBT schema. -/
structure Section where
  block_states : Blockstates
  y : Int
  other : List (String × Value)

/-- `SectionToModify::to_section`: palette, bit width, packed data. -/
def SectionToModify.to_section (s : SectionToModify) (y : Int) : Section :=
  { block_states :=
      { palette := (sectionPalette s.toList).map fun b =>
          { name := b.name, properties := b.properties }
        data := some (sectionData s.toList)
        other := [] }
    y := y
    other := [] }

/-! ### The decoder described by the claims: read `bpb` consecutive bits
per cell, stopping at each 64-bit word boundary. -/

/-- Decode one packed word into its `⌊64 / bpb⌋` palette indices. -/
def decodeWord (bpb w : Nat) : List Nat :=
  (List.range (64 / bpb)).map fun j => w >>> (j * bpb) % 2 ^ bpb

/-- Decode a packed long-array into the flat list of palette indices. -/
def decodeData (bpb : Nat) (data : List Nat) : List Nat :=
  data.flatMap (decodeWord bpb)

/-- Decode cell `i` of an emitted `(palette, data)` pair back to a block. -/
def decodeCell (palette : List Block) (bpb : Nat) (data : List Nat) (i : Nat) : Block :=
  palette.getD ((decodeData bpb data).getD i 0) AIR

/-! ### Arithmetic of the packing loop -/

/-- The value of a word holding the given palette indices LSB-first as
base-`2^bpb` digits. -/
def packNum (bpb : Nat) : List Nat → Nat
  | [] => 0
  | p :: ps => p + 2 ^ bpb * packNum bpb ps

theorem packNum_lt (bpb : Nat) (ds : List Nat) (h : ∀ q ∈ ds, q < 2 ^ bpb) :
    packNum bpb ds < 2 ^ (ds.length * bpb) := by
  induction ds with
  | nil => simp [packNum]
  | cons q rest ih =>
    have hq : q < 2 ^ bpb := h q (by simp)
    have hrest : packNum bpb rest < 2 ^ (rest.length * bpb) :=
      ih fun p hp => h p (by simp [hp])
    have hmul : 2 ^ bpb * (packNum bpb rest + 1) ≤ 2 ^ bpb * 2 ^ (rest.length * bpb) :=
      Nat.mul_le_mul_left _ (by omega)
    have hpow : 2 ^ ((rest.length + 1) * bpb) = 2 ^ bpb * 2 ^ (rest.length * bpb) := by
      rw [Nat.succ_mul, Nat.pow_add]; ring
    simp only [packNum, List.length_cons, hpow]
    have : 2 ^ bpb * (packNum bpb rest + 1) = 2 ^ bpb * packNum bpb rest + 2 ^ bpb := by ring
    omega

theorem packNum_append (bpb : Nat) (ds : List Nat) (p : Nat) :
    packNum bpb (ds ++ [p]) = packNum bpb ds + p * 2 ^ (ds.length * bpb) := by
  induction ds with
  | nil => simp [packNum]
  | cons q rest ih =>
    have hpow : 2 ^ ((rest.length + 1) * bpb) = 2 ^ bpb * 2 ^ (rest.length * bpb) := by
      rw [Nat.succ_mul, Nat.pow_add]; ring
    show q + 2 ^ bpb * packNum bpb (rest ++ [p]) =
      q + 2 ^ bpb * packNum bpb rest + p * 2 ^ ((rest.length + 1) * bpb)
    rw [ih, hpow]
    ring

theorem packNum_shiftRight_mod (bpb : Nat) (ds : List Nat)
    (h : ∀ q ∈ ds, q < 2 ^ bpb) (j : Nat) :
    packNum bpb ds >>> (j * bpb) % 2 ^ bpb = ds.getD j 0 := by
  induction ds generalizing j with
  | nil => simp [packNum]
  | cons q rest ih =>
    cases j with
    | zero =>
      simp only [Nat.zero_mul, Nat.shiftRight_zero, packNum, List.getD_cons_zero]
      rw [Nat.add_mul_mod_self_left]
      exact Nat.mod_eq_of_lt (h q (by simp))
    | succ j =>
      have hstep : packNum bpb (q :: rest) >>> ((j + 1) * bpb) =
          packNum bpb rest >>> (j * bpb) := by
        rw [Nat.shiftRight_eq_div_pow, Nat.shiftRight_eq_div_pow]
        have hmul : (j + 1) * bpb = bpb + j * bpb := by ring
        rw [hmul, Nat.pow_add, ← Nat.div_div_eq_div_mul]
        congr 1
        simp only [packNum]
        rw [Nat.add_mul_div_left _ _ (Nat.two_pow_pos bpb),
          Nat.div_eq_of_lt (h q (by simp)), Nat.zero_add]
      rw [hstep, ih fun p hp => h p (by simp [hp])]
      simp

/-- Oring a small value into the low bits with a shifted value is plain
addition: the bit ranges are disjoint. -/
theorem lor_shiftLeft_eq_add (x p n : Nat) (hx : x < 2 ^ n) :
    x ||| p <<< n = x + p * 2 ^ n := by
  rw [Nat.shiftLeft_eq, Nat.or_comm, Nat.mul_comm p (2 ^ n),
    ← Nat.mul_add_lt_is_or hx p]
  omega

theorem decodeWord_packNum (bpb : Nat) (ds : List Nat)
    (h : ∀ q ∈ ds, q < 2 ^ bpb) (hlen : ds.length = 64 / bpb) :
    decodeWord bpb (packNum bpb ds) = ds := by
  apply List.ext_getElem
  · simp [decodeWord, hlen]
  · intro i h1 h2
    simp only [decodeWord, List.getElem_map, List.getElem_range]
    have := packNum_shiftRight_mod bpb ds h i
    rwa [List.getD_eq_getElem ds 0 h2] at this

/-- Helper: `getD` into a `take` below the cut. -/
theorem getD_take_of_lt {l : List Nat} {n i : Nat} (h : i < n) :
    (l.take n).getD i 0 = l.getD i 0 := by
  induction l generalizing n i with
  | nil => simp
  | cons a l ih =>
    cases n with
    | zero => omega
    | succ n =>
      cases i with
      | zero => simp
      | succ i =>
        simp only [List.take_succ_cons, List.getD_cons_succ]
        exact ih (by omega)

/-- Helper: `getD` into a `drop`. -/
theorem getD_drop_add (l : List Nat) (n j : Nat) :
    (l.drop n).getD j 0 = l.getD (n + j) 0 := by
  induction l generalizing n with
  | nil => simp
  | cons a l ih =>
    cases n with
    | zero => simp
    | succ n =>
      have : n + 1 + j = (n + j) + 1 := by omega
      simp only [List.drop_succ_cons, this, List.getD_cons_succ]
      exact ih n

/-! ### The packing-loop invariant -/

/-- Invariant of the packing loop after the indices `l` have been
processed: every completed word in `data` holds exactly `⌊64 / bpb⌋`
indices, the word being filled holds the trailing indices as base-`2^bpb`
digits, and the completed words decode (word by word) to the processed
prefix. -/
structure PackInv (bpb : Nat) (l : List Nat) (s : PackState) : Prop where
  bound : ∀ p ∈ l, p < 2 ^ bpb
  len_le : 64 / bpb * s.data.length ≤ l.length
  le_len : l.length ≤ 64 / bpb * s.data.length + 64 / bpb
  lt_len : l ≠ [] → 64 / bpb * s.data.length < l.length
  nil_data : l = [] → s.data = []
  idx : s.curIdx = (l.length - 64 / bpb * s.data.length) * bpb
  cur_eq : s.cur = packNum bpb (l.drop (64 / bpb * s.data.length))
  dec_eq : s.data.flatMap (decodeWord bpb) = l.take (64 / bpb * s.data.length)

theorem packInv_nil (bpb : Nat) : PackInv bpb [] ⟨[], 0, 0⟩ := by
  refine ⟨by simp, by simp, by simp, by simp, fun _ => rfl, by simp, by simp [packNum], by simp⟩

theorem packInv_step {bpb : Nat} (hb1 : 1 ≤ bpb) (hb64 : bpb ≤ 64)
    {l : List Nat} {s : PackState} {p : Nat} (hp : p < 2 ^ bpb)
    (h : PackInv bpb l s) : PackInv bpb (l ++ [p]) (packStep bpb s p) := by
  obtain ⟨bound, len_le, le_len, lt_len, nil_data, idx, cur_eq, dec_eq⟩ := h
  set A := 64 / bpb with hA
  set d := s.data.length with hd
  have hA1 : 1 ≤ A := by rw [hA]; exact (Nat.one_le_div_iff (by omega)).2 hb64
  have hAmul : A * bpb ≤ 64 := by rw [hA]; exact Nat.div_mul_le_self 64 bpb
  have hAmul2 : 64 < (A + 1) * bpb := by
    have h1 := Nat.div_add_mod 64 bpb
    have h2 : 64 % bpb < bpb := Nat.mod_lt _ (by omega)
    have h3 : (A + 1) * bpb = bpb * (64 / bpb) + bpb := by rw [hA]; ring
    omega
  set r := l.length - A * d with hr
  have hsuccr : (r + 1) * bpb = r * bpb + bpb := by ring
  have hsuccA : (A + 1) * bpb = A * bpb + bpb := by ring
  have hAd : A * (d + 1) = A * d + A := by ring
  have hlen : l.length = A * d + r := by omega
  have hrA : r ≤ A := by omega
  have hbound' : ∀ q ∈ l ++ [p], q < 2 ^ bpb := by
    intro q hq
    rcases List.mem_append.1 hq with hq | hq
    · exact bound q hq
    · simp only [List.mem_singleton] at hq
      omega
  have hdroplen : (l.drop (A * d)).length = r := by
    simp [hlen]
  have hdropbound : ∀ q ∈ l.drop (A * d), q < 2 ^ bpb := fun q hq =>
    bound q (List.drop_subset _ _ hq)
  have hidx : s.curIdx + bpb = (r + 1) * bpb := by rw [idx]; ring
  by_cases hflush : s.curIdx + bpb > 64
  · -- the next index would straddle the boundary: the word is full, flush it
    have hrA' : r = A := by
      by_contra hne
      have hrlt : r + 1 ≤ A := by omega
      have hmono : (r + 1) * bpb ≤ A * bpb := Nat.mul_le_mul_right _ hrlt
      omega
    have hstep : packStep bpb s p = ⟨s.data ++ [s.cur], p, bpb⟩ := by
      simp [packStep, if_pos hflush]
    rw [hstep]
    have hlfull : A * (d + 1) = l.length := by omega
    have hdecfull : decodeWord bpb s.cur = l.drop (A * d) := by
      rw [cur_eq]
      refine decodeWord_packNum bpb _ hdropbound ?_
      rw [hdroplen, hrA']
    refine ⟨hbound', ?_, ?_, ?_, ?_, ?_, ?_, ?_⟩
    · simp only [← hA, List.length_append, List.length_singleton, ← hd]
      omega
    · simp only [← hA, List.length_append, List.length_singleton, ← hd]
      omega
    · intro _
      simp only [← hA, List.length_append, List.length_singleton, ← hd]
      omega
    · intro hcon
      simp at hcon
    · simp only [← hA, List.length_append, List.length_singleton, ← hd]
      have h1 : l.length + 1 - A * (d + 1) = 1 := by omega
      rw [h1]
      omega
    · simp only [← hA, List.length_append, List.length_singleton, ← hd]
      rw [List.drop_left' hlfull.symm]
      simp [packNum]
    · simp only [← hA, List.length_append, List.length_singleton, ← hd]
      rw [List.take_left' hlfull.symm, List.flatMap_append]
      simp only [List.flatMap_cons, List.flatMap_nil, List.append_nil]
      rw [dec_eq, hdecfull]
      exact List.take_append_drop _ l
  · -- the next index still fits: or it in at the cursor
    have hrlt : r < A := by
      by_contra hge
      have hrA' : r = A := by omega
      rw [hrA'] at hidx
      omega
    have hstep : packStep bpb s p =
        ⟨s.data, s.cur ||| p <<< s.curIdx, s.curIdx + bpb⟩ := by
      simp [packStep, if_neg hflush]
    rw [hstep]
    have hcurlt : s.cur < 2 ^ (r * bpb) := by
      rw [cur_eq]
      have hcb := packNum_lt bpb (l.drop (A * d)) hdropbound
      rwa [hdroplen] at hcb
    have hcur' : s.cur ||| p <<< s.curIdx = packNum bpb ((l ++ [p]).drop (A * d)) := by
      rw [idx, lor_shiftLeft_eq_add _ _ _ hcurlt, cur_eq,
        List.drop_append_of_le_length (by omega), packNum_append, hdroplen]
    refine ⟨hbound', ?_, ?_, ?_, ?_, ?_, ?_, ?_⟩
    · simp only [← hA, List.length_append, List.length_singleton, ← hd]
      omega
    · simp only [← hA, List.length_append, List.length_singleton, ← hd]
      omega
    · intro _
      simp only [← hA, List.length_append, List.length_singleton, ← hd]
      omega
    · intro hcon
      simp at hcon
    · simp only [← hA, List.length_append, List.length_singleton, ← hd]
      rw [idx]
      have h1 : l.length + 1 - A * d = r + 1 := by omega
      rw [h1]
      ring
    · simp only [← hA, ← hd]
      exact hcur'
    · simp only [← hA, ← hd]
      rw [List.take_append_of_le_length (by omega)]
      exact dec_eq

theorem packInv_foldl {bpb : Nat} (hb1 : 1 ≤ bpb) (hb64 : bpb ≤ 64) :
    ∀ (ps l : List Nat) (s : PackState), PackInv bpb l s →
      (∀ p ∈ ps, p < 2 ^ bpb) → PackInv bpb (l ++ ps) (ps.foldl (packStep bpb) s)
  | [], l, s, h, _ => by simpa using h
  | p :: ps, l, s, h, hp => by
    have h1 := packInv_step hb1 hb64 (hp p (by simp)) h
    have h2 := packInv_foldl hb1 hb64 ps (l ++ [p]) _ h1 fun q hq => hp q (by simp [hq])
    simpa [List.append_assoc] using h2

/-- The emitted words decode back to the packed indices (pointwise, for
every position of the input), and a non-empty input produces exactly
`⌈n / ⌊64 / bpb⌋⌉` words. -/
theorem packIndices_spec {bpb : Nat} (hb1 : 1 ≤ bpb) (hb64 : bpb ≤ 64)
    (ps : List Nat) (hp : ∀ p ∈ ps, p < 2 ^ bpb) :
    (∀ i, i < ps.length → (decodeData bpb (packIndices bpb ps)).getD i 0 = ps.getD i 0)
    ∧ (ps ≠ [] →
        (packIndices bpb ps).length = (ps.length + 64 / bpb - 1) / (64 / bpb)) := by
  have hinv := packInv_foldl hb1 hb64 ps [] ⟨[], 0, 0⟩ (packInv_nil bpb) hp
  simp only [List.nil_append] at hinv
  rcases eq_or_ne ps [] with hnil | hnil
  · subst hnil
    refine ⟨fun i hi => by simp at hi, fun hcon => absurd rfl hcon⟩
  obtain ⟨bound, len_le, le_len, lt_len, nil_data, idx, cur_eq, dec_eq⟩ := hinv
  set s := ps.foldl (packStep bpb) ⟨[], 0, 0⟩ with hs
  set A := 64 / bpb with hA
  set d := s.data.length with hd
  set n := ps.length with hn
  set r := n - A * d with hr
  have hA1 : 1 ≤ A := by rw [hA]; exact (Nat.one_le_div_iff (by omega)).2 hb64
  have hrpos : 1 ≤ r := by
    have := lt_len hnil
    omega
  have hrA : r ≤ A := by omega
  have hlen : n = A * d + r := by omega
  have hdroplen : (ps.drop (A * d)).length = r := by simp [← hn, hlen]
  have hdropbound : ∀ q ∈ ps.drop (A * d), q < 2 ^ bpb := fun q hq =>
    bound q (List.drop_subset _ _ hq)
  have hcuridx : 0 < s.curIdx := by
    rw [idx]
    exact Nat.mul_pos (by omega) (by omega)
  have hout : packIndices bpb ps = s.data ++ [s.cur] := by
    rw [packIndices, ← hs, if_pos hcuridx]
  have htakelen : (ps.take (A * d)).length = A * d :=
    List.length_take_of_le (by omega)
  constructor
  · intro i hi
    rw [hout]
    rw [show decodeData bpb (s.data ++ [s.cur]) =
        s.data.flatMap (decodeWord bpb) ++ decodeWord bpb s.cur from by simp [decodeData]]
    rw [dec_eq]
    rcases Nat.lt_or_ge i (A * d) with hcase | hcase
    · rw [List.getD_append _ _ _ _ (by omega)]
      exact getD_take_of_lt hcase
    · rw [List.getD_append_right _ _ _ _ (by omega), htakelen]
      have hj : i - A * d < A := by omega
      have hjlen : i - A * d < (decodeWord bpb s.cur).length := by
        simp [decodeWord, ← hA]
        omega
      rw [List.getD_eq_getElem _ _ hjlen]
      simp only [decodeWord, List.getElem_map, List.getElem_range]
      rw [cur_eq, packNum_shiftRight_mod bpb _ hdropbound, getD_drop_add]
      congr 1
      omega
  · intro _
    rw [hout]
    simp only [List.length_append, List.length_singleton, ← hd]
    have hexp : n + A - 1 = A * (d + 1) + (r - 1) := by
      have : A * (d + 1) = A * d + A := by ring
      omega
    rw [hexp, Nat.mul_add_div (by omega)]
    rw [Nat.div_eq_of_lt (by omega), Nat.add_zero]

/-! ### Properties of the bit-width loop and of the palette -/

theorem le_two_pow_bitsPerBlockFrom (n b : Nat) : n ≤ 2 ^ bitsPerBlockFrom n b := by
  rw [bitsPerBlockFrom]
  split
  · exact le_two_pow_bitsPerBlockFrom n (b + 1)
  · omega
termination_by n - b
decreasing_by
  rename_i h
  have hb : b < 2 ^ b := Nat.lt_two_pow b
  omega

theorem le_bitsPerBlockFrom (n b : Nat) : b ≤ bitsPerBlockFrom n b := by
  rw [bitsPerBlockFrom]
  split
  · have := le_bitsPerBlockFrom n (b + 1)
    omega
  · exact Nat.le_refl b
termination_by n - b
decreasing_by
  rename_i h
  have hb : b < 2 ^ b := Nat.lt_two_pow b
  omega

theorem bitsPerBlockFrom_le {n b c : Nat} (hn : n ≤ 2 ^ c) (hb : b ≤ c) :
    bitsPerBlockFrom n b ≤ c := by
  rw [bitsPerBlockFrom]
  split
  · rename_i h
    have hbc : b ≠ c := by
      rintro rfl
      omega
    exact bitsPerBlockFrom_le hn (by omega)
  · exact hb
termination_by c - b

theorem bitsPerBlockFrom_eq_max {n b : Nat} (hb : 1 ≤ b) :
    bitsPerBlockFrom n b = max b (Nat.clog 2 n) := by
  rw [bitsPerBlockFrom]
  split
  · rename_i h
    rw [bitsPerBlockFrom_eq_max (n := n) (b := b + 1) (by omega)]
    have hcl : b < Nat.clog 2 n := (Nat.pow_lt_iff_lt_clog (by norm_num)).1 h
    omega
  · rename_i h
    have hcl : Nat.clog 2 n ≤ b := (Nat.le_pow_iff_clog_le (by norm_num)).1 (by omega)
    omega
termination_by n - b
decreasing_by
  rename_i h
  have hb2 : b < 2 ^ b := Nat.lt_two_pow b
  omega

/-- The `bits_per_block` loop computes `max 4 ⌈log₂ n⌉`. -/
theorem bitsPerBlock_eq_max (n : Nat) : bitsPerBlock n = max 4 (Nat.clog 2 n) :=
  bitsPerBlockFrom_eq_max (by omega)

theorem dedupAdj_subset : ∀ l : List Block, ∀ b ∈ l, b ∈ dedupAdj l
  | [], b, hb => by simp at hb
  | [a], b, hb => by simpa [dedupAdj] using hb
  | a :: c :: rest, b, hb => by
    rw [dedupAdj]
    rcases List.mem_cons.1 hb with rfl | hb
    · split
      · rename_i hac
        exact dedupAdj_subset (c :: rest) b (by simp [hac])
      · simp
    · split
      · exact dedupAdj_subset (c :: rest) b hb
      · exact List.mem_cons_of_mem a (dedupAdj_subset (c :: rest) b hb)

theorem dedupAdj_length_le : ∀ l : List Block, (dedupAdj l).length ≤ l.length
  | [] => by simp [dedupAdj]
  | [a] => by simp [dedupAdj]
  | a :: c :: rest => by
    rw [dedupAdj]
    split
    · have := dedupAdj_length_le (c :: rest)
      simp only [List.length_cons] at this ⊢
      omega
    · have := dedupAdj_length_le (c :: rest)
      simp only [List.length_cons] at this ⊢
      omega

theorem mem_sectionPalette {l : List Block} {b : Block} (hb : b ∈ l) :
    b ∈ sectionPalette l :=
  dedupAdj_subset _ b (List.mem_mergeSort.2 hb)

theorem sectionPalette_length_le (l : List Block) :
    (sectionPalette l).length ≤ l.length := by
  have h1 := dedupAdj_length_le (l.mergeSort fun a b => Nat.ble a.id b.id)
  rwa [List.length_mergeSort] at h1

theorem idxOf_lt_length {b : Block} : ∀ {l : List Block}, b ∈ l → idxOf b l < l.length
  | [], hb => by simp at hb
  | q :: rest, hb => by
    rw [idxOf]
    split
    · simp
    · rename_i hq
      rcases List.mem_cons.1 hb with rfl | hb
      · exact absurd rfl hq
      · have := idxOf_lt_length hb
        simp only [List.length_cons]
        omega

theorem getD_idxOf {b : Block} : ∀ {l : List Block}, b ∈ l → l.getD (idxOf b l) AIR = b
  | [], hb => by simp at hb
  | q :: rest, hb => by
    rw [idxOf]
    split
    · rename_i hq
      simpa using hq
    · rename_i hq
      rcases List.mem_cons.1 hb with rfl | hb
      · exact absurd rfl hq
      · simpa using getD_idxOf hb

theorem sectionPalette_bpb_ge (l : List Block) :
    4 ≤ bitsPerBlock (sectionPalette l).length :=
  le_bitsPerBlockFrom _ 4

theorem sectionPalette_bpb_le {l : List Block} (hlen : l.length = 4096) :
    bitsPerBlock (sectionPalette l).length ≤ 12 := by
  refine bitsPerBlockFrom_le ?_ (by omega)
  have := sectionPalette_length_le l
  omega

theorem sectionPalette_le_two_pow (l : List Block) :
    (sectionPalette l).length ≤ 2 ^ bitsPerBlock (sectionPalette l).length :=
  le_two_pow_bitsPerBlockFrom _ 4

theorem palette_lookup_lt {l : List Block} {b : Block} (hb : b ∈ l) :
    palette_lookup (sectionPalette l) b < 2 ^ bitsPerBlock (sectionPalette l).length := by
  have h1 : idxOf b (sectionPalette l) < (sectionPalette l).length :=
    idxOf_lt_length (mem_sectionPalette hb)
  have h2 := sectionPalette_le_two_pow l
  rw [palette_lookup]
  omega

theorem getD_map_lookup (pal : List Block) (l : List Block) (i : Nat) (hi : i < l.length) :
    (l.map (palette_lookup pal)).getD i 0 = palette_lookup pal (l.getD i AIR) := by
  have him : i < (l.map (palette_lookup pal)).length := by simpa using hi
  rw [List.getD_eq_getElem _ _ him, List.getElem_map, List.getD_eq_getElem _ _ hi]

/-- Round trip of the palette encoder at the list level: decoding the
emitted data with the emitted palette recovers every cell. -/
theorem section_roundtrip_list {l : List Block} (hlen : l.length = 4096)
    {i : Nat} (hi : i < 4096) :
    decodeCell (sectionPalette l) (bitsPerBlock (sectionPalette l).length)
      (sectionData l) i = l.getD i AIR := by
  have hb4 := sectionPalette_bpb_ge l
  have hb12 := sectionPalette_bpb_le hlen
  have hbound : ∀ p ∈ l.map (palette_lookup (sectionPalette l)),
      p < 2 ^ bitsPerBlock (sectionPalette l).length := by
    intro p hp
    obtain ⟨b, hb, rfl⟩ := List.mem_map.1 hp
    exact palette_lookup_lt hb
  have hspec := (packIndices_spec (by omega) (by omega) _ hbound).1 i
    (by simpa [hlen] using hi)
  rw [decodeCell, sectionData, hspec, getD_map_lookup _ _ _ (by omega)]
  have hmem : l.getD i AIR ∈ l := by
    rw [List.getD_eq_getElem _ _ (by omega)]
    exact List.getElem_mem _
  rw [palette_lookup]
  exact getD_idxOf (mem_sectionPalette hmem)

theorem toList_length (s : SectionToModify) : s.toList.length = 4096 := by
  simp [SectionToModify.toList]

theorem toList_getD (s : SectionToModify) {i : Nat} (hi : i < 4096) :
    s.toList.getD i AIR = s.blocks i := by
  have him : i < s.toList.length := by rw [toList_length]; exact hi
  rw [List.getD_eq_getElem _ _ him]
  simp [SectionToModify.toList]

/-- C1: `to_section` packs the 4096 palette indices LSB-first in cell
order `(y % 16) * 256 + z * 16 + x`, never splitting an index across two
64-bit words (the encoder flushes the current word, zero-padded at the
top, whenever the next `bpb` bits would cross the boundary, and appends
the final partially-filled word); consequently decoding the emitted
`(palette, data)` pair by reading `bpb` consecutive bits per cell,
stopping at each 64-bit word boundary, returns the original block in
every one of the 4096 cells. -/
theorem section_encode_decode_roundtrip (s : SectionToModify) (x y z : Nat)
    (hx : x < 16) (_hy : y < 16) (hz : z < 16) :
    decodeCell (sectionPalette s.toList)
      (bitsPerBlock (sectionPalette s.toList).length)
      (sectionData s.toList) (SectionToModify.index x y z) =
      s.blocks (SectionToModify.index x y z) := by
  have hidx : SectionToModify.index x y z < 4096 := by
    rw [SectionToModify.index]
    have h1 : y % 16 < 16 := Nat.mod_lt _ (by omega)
    omega
  rw [section_roundtrip_list (toList_length s) hidx, toList_getD s hidx]

/-- Witness for C1: the all-`AIR` section at cell `(3, 2, 1)`. -/
theorem section_encode_decode_roundtrip_witness :
    (3 < 16 ∧ 2 < 16 ∧ 1 < 16) ∧
      decodeCell (sectionPalette (SectionToModify.mk fun _ => AIR).toList)
        (bitsPerBlock (sectionPalette (SectionToModify.mk fun _ => AIR).toList).length)
        (sectionData (SectionToModify.mk fun _ => AIR).toList)
        (SectionToModify.index 3 2 1) =
        (SectionToModify.mk fun _ => AIR).blocks (SectionToModify.index 3 2 1) :=
  ⟨⟨by omega, by omega, by omega⟩,
    section_encode_decode_roundtrip _ 3 2 1 (by omega) (by omega) (by omega)⟩

/-- C2: the bit width chosen by the encoder is `max 4 ⌈log₂ |palette|⌉`;
in particular a section whose palette has 2 entries (one non-`AIR` kind
plus `AIR`) is encoded with `bpb = 4` and a data long-array of exactly
`⌈4096·4/64⌉ = 256` words, and a section with 17 distinct kinds is
encoded with `bpb = 5`. -/
theorem section_bits_per_block_spec (s : SectionToModify) :
    bitsPerBlock (sectionPalette s.toList).length =
        max 4 (Nat.clog 2 (sectionPalette s.toList).length)
    ∧ ((sectionPalette s.toList).length = 2 →
        bitsPerBlock (sectionPalette s.toList).length = 4
          ∧ (sectionData s.toList).length = 256)
    ∧ ((sectionPalette s.toList).length = 17 →
        bitsPerBlock (sectionPalette s.toList).length = 5) := by
  refine ⟨bitsPerBlock_eq_max _, fun h2 => ⟨?_, ?_⟩, fun h17 => ?_⟩
  · rw [bitsPerBlock_eq_max, h2]
    have : Nat.clog 2 2 = 1 := Nat.clog_eq_one (by omega) (by omega)
    omega
  · have hbpb : bitsPerBlock (sectionPalette s.toList).length = 4 := by
      rw [bitsPerBlock_eq_max, h2]
      have : Nat.clog 2 2 = 1 := Nat.clog_eq_one (by omega) (by omega)
      omega
    have hbound : ∀ p ∈ s.toList.map (palette_lookup (sectionPalette s.toList)),
        p < 2 ^ bitsPerBlock (sectionPalette s.toList).length := by
      intro p hp
      obtain ⟨b, hb, rfl⟩ := List.mem_map.1 hp
      exact palette_lookup_lt hb
    have hne : s.toList.map (palette_lookup (sectionPalette s.toList)) ≠ [] := by
      intro hcon
      have := congrArg List.length hcon
      simp [toList_length s] at this
    have hlenspec := (packIndices_spec (by omega) (by rw [hbpb]; omega) _ hbound).2 hne
    rw [sectionData, hlenspec, List.length_map, toList_length s, hbpb]
  · rw [bitsPerBlock_eq_max, h17]
    have hlow : 4 < Nat.clog 2 17 := by
      rw [← Nat.pow_lt_iff_lt_clog (by omega)]
      norm_num
    have hhigh : Nat.clog 2 17 ≤ 5 := by
      rw [← Nat.le_pow_iff_clog_le (by omega)]
      norm_num
    omega

/-! ### Chunk, region, and world buffers, and the editor façade -/

/-- `ChunkToModify`: sparse map from section-Y (an `i8` in the source, so
an `Int` key only ever set within `[-128, 127]`) to section buffers, plus
the passthrough NBT dictionary `other`. -/
structure ChunkToModify where
  sections : List (Int × SectionToModify)
  other : List (String × Value)

/-- `ChunkToModify::get_block`.  The outer `Option` is panic: `none` when
`(y >> 4).try_into::<i8>()` fails.  The lookup `self.sections.get(..)?`
happens after the conversion. -/
def ChunkToModify.get_block (c : ChunkToModify) (x : Nat) (y : Int) (z : Nat) :
    Option (Option Block) :=
  let sectionIdx := y / 16
  if -128 ≤ sectionIdx ∧ sectionIdx ≤ 127 then
    some (match alGet c.sections sectionIdx with
      | none => none
      | some s => s.get_block x (y % 16).toNat z)
  else none

/-- `ChunkToModify::set_block`: materialise the section on demand
(`entry(..).or_default()`, the default being all-`AIR`), then write.
`none` models the panic when `y >> 4` does not fit in an `i8`. -/
def ChunkToModify.set_block (c : ChunkToModify) (x : Nat) (y : Int) (z : Nat)
    (block : Block) : Option ChunkToModify :=
  let sectionIdx := y / 16
  if -128 ≤ sectionIdx ∧ sectionIdx ≤ 127 then
    let s := (alGet c.sections sectionIdx).getD ⟨fun _ => AIR⟩
    some { c with
      sections := alPut c.sections sectionIdx (s.set_block x (y % 16).toNat z block) }
  else none

/-- `ChunkToModify::sections()`: every materialised section, encoded. -/
def ChunkToModify.sectionsList (c : ChunkToModify) : List Section :=
  c.sections.map fun ys => ys.2.to_section ys.1

/-- `RegionToModify`: sparse 32×32 map of chunk buffers. -/
structure RegionToModify where
  chunks : List ((Int × Int) × ChunkToModify)

/-- `RegionToModify::get_chunk`. -/
def RegionToModify.get_chunk (r : RegionToModify) (x z : Int) : Option ChunkToModify :=
  alGet r.chunks (x, z)

/-- `WorldToModify`: sparse map of region buffers. -/
structure WorldToModify where
  regions : List ((Int × Int) × RegionToModify)

/-- `WorldToModify::get_region`. -/
def WorldToModify.get_region (w : WorldToModify) (x z : Int) : Option RegionToModify :=
  alGet w.regions (x, z)

/-- `WorldToModify::get_block`: decompose the coordinate, walk the
hierarchy without materialising (`?` on the lookups), and read.  The
outer `Option` is panic, propagated from `ChunkToModify::get_block`. -/
def WorldToModify.get_block (w : WorldToModify) (x y z : Int) : Option (Option Block) :=
  let chunkX := chunkCoord x
  let chunkZ := chunkCoord z
  let regionX := regionCoord chunkX
  let regionZ := regionCoord chunkZ
  match w.get_region regionX regionZ with
  | none => some none
  | some region =>
    match region.get_chunk (chunkX % 32) (chunkZ % 32) with
    | none => some none
    | some chunk => chunk.get_block (x % 16).toNat y (z % 16).toNat

/-- `WorldToModify::set_block`: materialise region and chunk on demand
and write; `none` models the panic from `ChunkToModify::set_block`. -/
def WorldToModify.set_block (w : WorldToModify) (x y z : Int) (block : Block) :
    Option WorldToModify :=
  let chunkX := chunkCoord x
  let chunkZ := chunkCoord z
  let regionX := regionCoord chunkX
  let regionZ := regionCoord chunkZ
  let region := (alGet w.regions (regionX, regionZ)).getD ⟨[]⟩
  let chunk := (alGet region.chunks (chunkX % 32, chunkZ % 32)).getD ⟨[], []⟩
  match chunk.set_block (x % 16).toNat y (z % 16).toNat block with
  | none => none
  | some chunk' =>
    some ⟨alPut w.regions (regionX, regionZ)
      ⟨alPut region.chunks (chunkX % 32, chunkZ % 32) chunk'⟩⟩

/-- The editor façade.  The two scale factors are `f64` in the source but
are only ever read through the truncation `as i32` (in the bounds check
and `get_max_coords`), so the model stores those integer values
directly. -/
structure WorldEditor where
  region_dir : String
  world : WorldToModify
  scale_factor_x : Int
  scale_factor_z : Int

/-- `WorldEditor::set_block`: bounds check, override policy against the
existing block, then write.  `none` models a panic. -/
def WorldEditor.set_block (e : WorldEditor) (block : Block) (x y z : Int)
    (override_whitelist override_blacklist : Option (List Block)) :
    Option WorldEditor :=
  if x < 0 ∨ x > e.scale_factor_x ∨ z < 0 ∨ z > e.scale_factor_z then
    some e
  else
    match e.world.get_block x y z with
    | none => none
    | some existing =>
      let should_insert :=
        match existing with
        | some existing_block =>
          match override_whitelist with
          | some whitelist => whitelist.any fun wb => wb.id == existing_block.id
          | none =>
            match override_blacklist with
            | some blacklist => !(blacklist.any fun bb => bb.id == existing_block.id)
            | none => false
        | none => true
      if should_insert then
        match e.world.set_block x y z block with
        | none => none
        | some w => some { e with world := w }
      else
        some e

/-- `WorldEditor::check_for_block`: `true` when a block exists there and
appears in the whitelist or in the blacklist (both act as match lists). -/
def WorldEditor.check_for_block (e : WorldEditor) (x y z : Int)
    (whitelist blacklist : Option (List Block)) : Option Bool :=
  match e.world.get_block x y z with
  | none => none
  | some (some existing_block) =>
    some
      ((match whitelist with
        | some wl => wl.any fun wb => wb.id == existing_block.id
        | none => false)
      || (match blacklist with
        | some bl => bl.any fun bb => bb.id == existing_block.id
        | none => false))
  | some none => some false

/-- The sign block entity built by `WorldEditor::set_sign` (a `HashMap`
in the source; the entries are listed in insertion order). -/
def signEntity (line1 line2 line3 line4 : String) (x y z : Int) : Value :=
  Value.compound
    [("front_text", Value.compound
        [("messages", Value.list
            [Value.string ("\"" ++ line1 ++ "\""),
             Value.string ("\"" ++ line2 ++ "\""),
             Value.string ("\"" ++ line3 ++ "\""),
             Value.string ("\"" ++ line4 ++ "\"")]),
         ("color", Value.string "black"),
         ("has_glowing_text", Value.byte 0)]),
     ("id", Value.string "minecraft:sign"),
     ("is_waxed", Value.byte 0),
     ("keepPacked", Value.byte 0),
     ("x", Value.int x),
     ("y", Value.int y),
     ("z", Value.int z)]

/-- `WorldEditor::set_sign`: materialise the region and chunk for
`(x >> 4, z >> 4)`, append the sign entity to the chunk's
`block_entities` list (pushing when the key holds a list, inserting a
fresh one-element list when the key is absent, and doing nothing when the
key holds a non-list), then call `set_block(SIGN, x, y, z)`.  The
`rotation` argument is accepted but unused. -/
def WorldEditor.set_sign (e : WorldEditor) (line1 line2 line3 line4 : String)
    (x y z : Int) (_rotation : Int) : Option WorldEditor :=
  let chunkX := chunkCoord x
  let chunkZ := chunkCoord z
  let regionX := regionCoord chunkX
  let regionZ := regionCoord chunkZ
  let entity := signEntity line1 line2 line3 line4 x y z
  let region := (alGet e.world.regions (regionX, regionZ)).getD ⟨[]⟩
  let chunk := (alGet region.chunks (chunkX % 32, chunkZ % 32)).getD ⟨[], []⟩
  let chunk' :=
    match alGet chunk.other "block_entities" with
    | some (Value.list entities) =>
      { chunk with
        other := alPut chunk.other "block_entities" (Value.list (entities ++ [entity])) }
    | some _ => chunk
    | none =>
      { chunk with
        other := alPut chunk.other "block_entities" (Value.list [entity]) }
  let world' : WorldToModify :=
    ⟨alPut e.world.regions (regionX, regionZ)
      ⟨alPut region.chunks (chunkX % 32, chunkZ % 32) chunk'⟩⟩
  WorldEditor.set_block { e with world := world' } SIGN x y z none none

/-! ### The per-chunk patch of the save path -/

/-- The chunk NBT schema (`Chunk`): the fields serde projects out, plus
the open-ended passthrough dictionary. -/
structure Chunk where
  sections : List Section
  x_pos : Int
  z_pos : Int
  is_light_on : Int
  other : List (String × Value)

/-- `HashMap::extend`: every key of `updates` overwrites the
corresponding key of `m`. -/
def extendAL (m updates : List (String × Value)) : List (String × Value) :=
  updates.foldl (fun acc kv => alPut acc kv.1 kv.2) m

/-- The patch `save` applies to one decoded template chunk
(`world_editor.rs` lines 470–477): overlay the chunk buffer when one
exists at this slot, then stamp the chunk coordinates and clear
`isLightOn`. -/
def patchChunk (template : Chunk) (region_x region_z chunk_x chunk_z : Int)
    (buf : Option ChunkToModify) : Chunk :=
  let c :=
    match buf with
    | some chunk_to_modify =>
      { template with
        sections := chunk_to_modify.sectionsList
        other := extendAL template.other chunk_to_modify.other }
    | none => template
  { c with
    x_pos := chunk_x + region_x * 32
    z_pos := chunk_z + region_z * 32
    is_light_on := 0 }

/-! ### Lemmas about `extendAL` -/

theorem alGet_eq_none_of_not_mem_keys {κ ν : Type} [DecidableEq κ]
    {m : List (κ × ν)} {k : κ} (h : k ∉ m.map Prod.fst) : alGet m k = none := by
  induction m with
  | nil => rfl
  | cons kv rest ih =>
    obtain ⟨k', v'⟩ := kv
    simp only [List.map_cons, List.mem_cons, not_or] at h
    rw [alGet, if_neg (fun hc => h.1 hc.symm)]
    exact ih h.2

theorem alGet_extendAL_of_none {m new : List (String × Value)} {k : String}
    (h : alGet new k = none) : alGet (extendAL m new) k = alGet m k := by
  induction new generalizing m with
  | nil => rfl
  | cons kv rest ih =>
    obtain ⟨k', v'⟩ := kv
    rw [alGet] at h
    by_cases hk : k' = k
    · rw [if_pos hk] at h
      exact absurd h (by simp)
    · rw [if_neg hk] at h
      rw [show extendAL m ((k', v') :: rest) = extendAL (alPut m k' v') rest from rfl,
        ih h, alGet_alPut_ne _ _ _ _ hk]

theorem alGet_extendAL_of_some {m new : List (String × Value)} {k : String} {v : Value}
    (hnodup : (new.map Prod.fst).Nodup) (h : alGet new k = some v) :
    alGet (extendAL m new) k = some v := by
  induction new generalizing m with
  | nil => exact absurd h (by simp [alGet])
  | cons kv rest ih =>
    obtain ⟨k', v'⟩ := kv
    simp only [List.map_cons, List.nodup_cons] at hnodup
    rw [alGet] at h
    by_cases hk : k' = k
    · rw [if_pos hk] at h
      subst hk
      have hnone : alGet rest k' = none :=
        alGet_eq_none_of_not_mem_keys hnodup.1
      rw [show extendAL m ((k', v') :: rest) = extendAL (alPut m k' v') rest from rfl,
        alGet_extendAL_of_none hnone, alGet_alPut_same]
      exact h
    · rw [if_neg hk] at h
      rw [show extendAL m ((k', v') :: rest) = extendAL (alPut m k' v') rest from rfl]
      exact ih hnodup.2 h

/-- C6: the per-chunk patch of the save path changes exactly `xPos`
(to `cx + rx*32`), `zPos` (to `cz + rz*32`), `isLightOn` (to 0), and —
only when a chunk buffer exists at this slot — replaces `sections` by the
buffer's encoded sections and lets every key of the buffer's `other`
dictionary overwrite the corresponding chunk NBT key; every other chunk
NBT field is preserved unchanged from the template. -/
theorem save_patch_spec (template : Chunk) (rx rz cx cz : Int)
    (buf : Option ChunkToModify) :
    ((patchChunk template rx rz cx cz buf).x_pos = cx + rx * 32
      ∧ (patchChunk template rx rz cx cz buf).z_pos = cz + rz * 32
      ∧ (patchChunk template rx rz cx cz buf).is_light_on = 0)
    ∧ (∀ ctm, buf = some ctm →
        (patchChunk template rx rz cx cz buf).sections = ctm.sectionsList
        ∧ ((ctm.other.map Prod.fst).Nodup →
            ∀ k v, alGet ctm.other k = some v →
              alGet (patchChunk template rx rz cx cz buf).other k = some v)
        ∧ (∀ k, alGet ctm.other k = none →
            alGet (patchChunk template rx rz cx cz buf).other k =
              alGet template.other k))
    ∧ (buf = none →
        (patchChunk template rx rz cx cz buf).sections = template.sections
        ∧ (patchChunk template rx rz cx cz buf).other = template.other) := by
  refine ⟨?_, fun ctm hctm => ?_, fun hnone => ?_⟩
  · cases buf <;> exact ⟨rfl, rfl, rfl⟩
  · subst hctm
    exact ⟨rfl, fun hnodup k v hk => alGet_extendAL_of_some hnodup hk,
      fun k hk => alGet_extendAL_of_none hk⟩
  · subst hnone
    exact ⟨rfl, rfl⟩

/-! ### Write–read lemmas through the buffer hierarchy -/

theorem section_get_after_set (s : SectionToModify) (x y z : Nat) (b : Block) :
    (s.set_block x y z b).get_block x y z = if b = AIR then none else some b := by
  simp [SectionToModify.set_block, SectionToModify.get_block]

theorem chunk_get_after_set (c : ChunkToModify) (x : Nat) (y : Int) (z : Nat) (b : Block)
    (hy : -128 ≤ y / 16 ∧ y / 16 ≤ 127) :
    ∃ c', c.set_block x y z b = some c' ∧
      c'.get_block x y z = some (if b = AIR then none else some b) := by
  refine ⟨_, by simp only [ChunkToModify.set_block]; rw [if_pos hy], ?_⟩
  simp only [ChunkToModify.get_block]
  rw [if_pos hy, alGet_alPut_same]
  simp only [section_get_after_set]

theorem world_get_after_set (w : WorldToModify) (x y z : Int) (b : Block)
    (hy : -128 ≤ y / 16 ∧ y / 16 ≤ 127) :
    ∃ w', w.set_block x y z b = some w' ∧
      w'.get_block x y z = some (if b = AIR then none else some b) := by
  obtain ⟨c', hset, hget⟩ := chunk_get_after_set
    ((alGet ((alGet w.regions (regionCoord (chunkCoord x),
        regionCoord (chunkCoord z))).getD ⟨[]⟩).chunks
      (chunkCoord x % 32, chunkCoord z % 32)).getD ⟨[], []⟩)
    (x % 16).toNat y (z % 16).toNat b hy
  refine ⟨⟨alPut w.regions (regionCoord (chunkCoord x), regionCoord (chunkCoord z))
      ⟨alPut ((alGet w.regions (regionCoord (chunkCoord x),
          regionCoord (chunkCoord z))).getD ⟨[]⟩).chunks
        (chunkCoord x % 32, chunkCoord z % 32) c'⟩⟩, ?_, ?_⟩
  · simp only [WorldToModify.set_block]
    rw [hset]
  · simp only [WorldToModify.get_block, WorldToModify.get_region,
      RegionToModify.get_chunk]
    simp only [alGet_alPut_same]
    exact hget

theorem WorldToModify.range_of_get_some {w : WorldToModify} {x y z : Int} {eb : Block}
    (h : w.get_block x y z = some (some eb)) : -128 ≤ y / 16 ∧ y / 16 ≤ 127 := by
  by_contra hy
  simp only [WorldToModify.get_block, WorldToModify.get_region,
    RegionToModify.get_chunk] at h
  split at h
  · simp at h
  · split at h
    · simp at h
    · rw [ChunkToModify.get_block, if_neg hy] at h
      simp at h

theorem WorldToModify.get_out_of_range (w : WorldToModify) {x y z : Int}
    (hy : ¬(-128 ≤ y / 16 ∧ y / 16 ≤ 127)) :
    w.get_block x y z = none ∨ w.get_block x y z = some none := by
  simp only [WorldToModify.get_block, WorldToModify.get_region,
    RegionToModify.get_chunk]
  rcases hr : alGet w.regions (regionCoord (chunkCoord x), regionCoord (chunkCoord z))
    with _ | region
  · simp [hr]
  · rcases hc : alGet region.chunks (chunkCoord x % 32, chunkCoord z % 32) with _ | chunk
    · simp [hr, hc]
    · show (match alGet region.chunks (chunkCoord x % 32, chunkCoord z % 32) with
        | none => some none
        | some chunk => chunk.get_block (x % 16).toNat y (z % 16).toNat) = none ∨ _
      rw [hc]
      left
      simp only [ChunkToModify.get_block]
      rw [if_neg hy]

theorem WorldToModify.set_out_of_range (w : WorldToModify) {x y z : Int} (b : Block)
    (hy : ¬(-128 ≤ y / 16 ∧ y / 16 ≤ 127)) :
    w.set_block x y z b = none := by
  simp only [WorldToModify.set_block]
  rw [show ChunkToModify.set_block
      ((alGet ((alGet w.regions (regionCoord (chunkCoord x),
          regionCoord (chunkCoord z))).getD ⟨[]⟩).chunks
        (chunkCoord x % 32, chunkCoord z % 32)).getD ⟨[], []⟩)
      (x % 16).toNat y (z % 16).toNat b = none from by
    rw [ChunkToModify.set_block, if_neg hy]]

theorem WorldToModify.get_in_range_isSome (w : WorldToModify) {x y z : Int}
    (hy : -128 ≤ y / 16 ∧ y / 16 ≤ 127) :
    (w.get_block x y z).isSome := by
  simp only [WorldToModify.get_block, WorldToModify.get_region,
    RegionToModify.get_chunk]
  rcases hr : alGet w.regions (regionCoord (chunkCoord x), regionCoord (chunkCoord z))
    with _ | region
  · simp [hr]
  · rcases hc : alGet region.chunks (chunkCoord x % 32, chunkCoord z % 32) with _ | chunk
    · simp [hr, hc]
    · show (match alGet region.chunks (chunkCoord x % 32, chunkCoord z % 32) with
        | none => some none
        | some chunk => chunk.get_block (x % 16).toNat y (z % 16).toNat).isSome = true
      rw [hc]
      simp only [ChunkToModify.get_block]
      rw [if_pos hy]
      simp

/-! ### The override policy (`WorldEditor::set_block`) -/

/-- The claim's wording of the override condition: a whitelist is supplied
and contains the existing block's id, or no whitelist is supplied, a
blacklist is supplied, and it does not contain the existing block's id. -/
def overridePermits (wl bl : Option (List Block)) (eb : Block) : Prop :=
  (∃ w, wl = some w ∧ eb.id ∈ w.map Block.id) ∨
    (wl = none ∧ ∃ l, bl = some l ∧ eb.id ∉ l.map Block.id)

theorem any_id_iff (w : List Block) (eb : Block) :
    (w.any fun q => q.id == eb.id) = true ↔ eb.id ∈ w.map Block.id := by
  rw [List.any_eq_true]
  constructor
  · rintro ⟨q, hq, hbeq⟩
    rw [beq_iff_eq] at hbeq
    exact List.mem_map.2 ⟨q, hq, hbeq⟩
  · intro hm
    obtain ⟨q, hq, hid⟩ := List.mem_map.1 hm
    exact ⟨q, hq, by rw [beq_iff_eq]; exact hid⟩

theorem overridePermits_some (w : List Block) (bl : Option (List Block)) (eb : Block) :
    overridePermits (some w) bl eb ↔ eb.id ∈ w.map Block.id := by
  simp [overridePermits]

theorem overridePermits_none_some (l : List Block) (eb : Block) :
    overridePermits none (some l) eb ↔ eb.id ∉ l.map Block.id := by
  simp [overridePermits]

theorem overridePermits_none_none (eb : Block) : ¬overridePermits none none eb := by
  simp [overridePermits]

/-- The boolean `should_insert` computed by `set_block` when a block
already exists at the target coordinate. -/
def shouldInsertExisting (wl bl : Option (List Block)) (eb : Block) : Bool :=
  match wl with
  | some whitelist => whitelist.any fun wb => wb.id == eb.id
  | none =>
    match bl with
    | some blacklist => !(blacklist.any fun bb => bb.id == eb.id)
    | none => false

/-- Evaluation of an in-bounds `set_block` against an existing block. -/
theorem set_block_in_bounds_eval (e : WorldEditor) (b : Block) (x y z : Int)
    (wl bl : Option (List Block))
    (hbound : ¬(x < 0 ∨ x > e.scale_factor_x ∨ z < 0 ∨ z > e.scale_factor_z))
    (eb : Block) (hex : e.world.get_block x y z = some (some eb)) :
    e.set_block b x y z wl bl =
      if shouldInsertExisting wl bl eb
      then
        (match e.world.set_block x y z b with
          | none => none
          | some w => some { e with world := w })
      else some e := by
  simp only [WorldEditor.set_block]
  rw [if_neg hbound, hex]
  rfl

/-- The boolean `should_insert` of the source agrees with the claim's
override condition. -/
theorem override_cond_iff (wl bl : Option (List Block)) (eb : Block) :
    shouldInsertExisting wl bl eb = true ↔ overridePermits wl bl eb := by
  rcases wl with _ | w
  · rcases bl with _ | l
    · simpa [shouldInsertExisting] using overridePermits_none_none eb
    · rw [overridePermits_none_some, shouldInsertExisting, Bool.not_eq_true',
        ← Bool.not_eq_true, any_id_iff]
  · rw [shouldInsertExisting, any_id_iff, overridePermits_some]

/-- C3: for an in-bounds `set_block` over an existing (non-`AIR`) block
`eb`, the new block is installed iff the claim's condition holds (a
whitelist containing `eb`'s id, or no whitelist and a blacklist not
containing it); with neither list the state is unchanged, and with both
lists the whitelist alone decides. -/
theorem set_block_override_policy (e : WorldEditor) (b : Block) (x y z : Int)
    (wl bl : Option (List Block)) (eb : Block) (hb : b ≠ AIR)
    (hx : 0 ≤ x ∧ x ≤ e.scale_factor_x) (hz : 0 ≤ z ∧ z ≤ e.scale_factor_z)
    (hex : e.world.get_block x y z = some (some eb)) :
    ∃ e', e.set_block b x y z wl bl = some e'
      ∧ (overridePermits wl bl eb → e'.world.get_block x y z = some (some b))
      ∧ (¬overridePermits wl bl eb → e' = e)
      ∧ (wl = none → bl = none → e' = e)
      ∧ (∀ w l, wl = some w → bl = some l →
          (overridePermits wl bl eb ↔ eb.id ∈ w.map Block.id)) := by
  have hy := WorldToModify.range_of_get_some hex
  have hbound : ¬(x < 0 ∨ x > e.scale_factor_x ∨ z < 0 ∨ z > e.scale_factor_z) := by
    omega
  obtain ⟨w', hset, hget⟩ := world_get_after_set e.world x y z b hy
  have hget' : w'.get_block x y z = some (some b) := by rw [hget, if_neg hb]
  have heval := set_block_in_bounds_eval e b x y z wl bl hbound eb hex
  have hlast : ∀ w l, wl = some w → bl = some l →
      (overridePermits wl bl eb ↔ eb.id ∈ w.map Block.id) := by
    intro w l hw _
    subst hw
    exact overridePermits_some w bl eb
  cases hcond : shouldInsertExisting wl bl eb with
  | true =>
    have hperm : overridePermits wl bl eb := (override_cond_iff wl bl eb).1 hcond
    refine ⟨{ e with world := w' }, ?_, fun _ => hget', fun hnp => absurd hperm hnp,
      ?_, hlast⟩
    · rw [heval, hcond, hset]
      rfl
    · intro hwn hbn
      subst hwn
      subst hbn
      simp [shouldInsertExisting] at hcond
  | false =>
    have hnperm : ¬overridePermits wl bl eb := fun hp => by
      rw [← override_cond_iff, hcond] at hp
      simp at hp
    exact ⟨e, by rw [heval, hcond]; rfl, fun hp => absurd hp hnperm, fun _ => rfl,
      fun _ _ => rfl, hlast⟩

/-- C4: an in-bounds `set_block` of a non-`AIR` block, with `y >> 4`
representable as a signed byte and no previously written non-`AIR` block
at the target (or one the supplied lists permit overwriting), makes
`get_block` return the new block. -/
theorem set_block_write_read (e : WorldEditor) (b : Block) (x y z : Int)
    (wl bl : Option (List Block)) (hb : b ≠ AIR)
    (hx : 0 ≤ x ∧ x ≤ e.scale_factor_x) (hz : 0 ≤ z ∧ z ≤ e.scale_factor_z)
    (hy : -128 ≤ y / 16 ∧ y / 16 ≤ 127)
    (hprev : e.world.get_block x y z = some none ∨
      ∃ eb, e.world.get_block x y z = some (some eb) ∧ overridePermits wl bl eb) :
    ∃ e', e.set_block b x y z wl bl = some e'
      ∧ e'.world.get_block x y z = some (some b) := by
  have hbound : ¬(x < 0 ∨ x > e.scale_factor_x ∨ z < 0 ∨ z > e.scale_factor_z) := by
    omega
  obtain ⟨w', hset, hget⟩ := world_get_after_set e.world x y z b hy
  have hget' : w'.get_block x y z = some (some b) := by rw [hget, if_neg hb]
  refine ⟨{ e with world := w' }, ?_, hget'⟩
  rcases hprev with hnone | ⟨eb, hex, hperm⟩
  · simp only [WorldEditor.set_block]
    rw [if_neg hbound, hnone, hset]
    rfl
  · rw [set_block_in_bounds_eval e b x y z wl bl hbound eb hex,
      (override_cond_iff wl bl eb).2 hperm, hset]
    rfl

/-- Witness for C4: writing a block into a fresh editor. -/
theorem set_block_write_read_witness :
    ((⟨2⟩ : Block) ≠ AIR ∧ (0 ≤ (5 : Int) ∧ (5 : Int) ≤ 100)
      ∧ (0 ≤ (5 : Int) ∧ (5 : Int) ≤ 100)
      ∧ (-128 ≤ (64 : Int) / 16 ∧ (64 : Int) / 16 ≤ 127)
      ∧ (WorldEditor.mk "" ⟨[]⟩ 100 100).world.get_block 5 64 5 = some none)
    ∧ ∃ e', (WorldEditor.mk "" ⟨[]⟩ 100 100).set_block ⟨2⟩ 5 64 5 none none = some e'
        ∧ e'.world.get_block 5 64 5 = some (some ⟨2⟩) :=
  ⟨⟨by decide, by decide, by decide, by decide, by decide⟩,
    set_block_write_read (WorldEditor.mk "" ⟨[]⟩ 100 100) ⟨2⟩ 5 64 5 none none
      (by decide) (by decide) (by decide) (by decide) (Or.inl (by decide))⟩

/-- Witness for C3: overwriting an existing block via a whitelist. -/
theorem set_block_override_policy_witness :
    ((⟨3⟩ : Block) ≠ AIR ∧ (0 ≤ (5 : Int) ∧ (5 : Int) ≤ 100)
      ∧ (0 ≤ (5 : Int) ∧ (5 : Int) ≤ 100)
      ∧ (((WorldEditor.mk "" ⟨[]⟩ 100 100).set_block ⟨2⟩ 5 64 5 none none).getD
          (WorldEditor.mk "" ⟨[]⟩ 100 100)).world.get_block 5 64 5 = some (some ⟨2⟩))
    ∧ ∃ e', (((WorldEditor.mk "" ⟨[]⟩ 100 100).set_block ⟨2⟩ 5 64 5 none none).getD
          (WorldEditor.mk "" ⟨[]⟩ 100 100)).set_block ⟨3⟩ 5 64 5 (some [⟨2⟩]) none =
          some e'
        ∧ (overridePermits (some [⟨2⟩]) none ⟨2⟩ →
            e'.world.get_block 5 64 5 = some (some ⟨3⟩))
        ∧ (¬overridePermits (some [⟨2⟩]) none ⟨2⟩ →
            e' = ((WorldEditor.mk "" ⟨[]⟩ 100 100).set_block ⟨2⟩ 5 64 5 none none).getD
              (WorldEditor.mk "" ⟨[]⟩ 100 100))
        ∧ ((some [(⟨2⟩ : Block)]) = none → (none : Option (List Block)) = none →
            e' = ((WorldEditor.mk "" ⟨[]⟩ 100 100).set_block ⟨2⟩ 5 64 5 none none).getD
              (WorldEditor.mk "" ⟨[]⟩ 100 100))
        ∧ (∀ w l, (some [(⟨2⟩ : Block)]) = some w → (none : Option (List Block)) = some l →
            (overridePermits (some [⟨2⟩]) none ⟨2⟩ ↔ (⟨2⟩ : Block).id ∈ w.map Block.id)) :=
  ⟨⟨by decide, by decide, by decide, by decide⟩,
    set_block_override_policy _ ⟨3⟩ 5 64 5 (some [⟨2⟩]) none ⟨2⟩
      (by decide) (by decide) (by decide) (by decide)⟩

/-- Out-of-bounds evaluation of `set_block`: the guard returns early. -/
theorem set_block_oob_eval (e : WorldEditor) (b : Block) (x y z : Int)
    (wl bl : Option (List Block))
    (hout : x < 0 ∨ x > e.scale_factor_x ∨ z < 0 ∨ z > e.scale_factor_z) :
    e.set_block b x y z wl bl = some e := by
  simp only [WorldEditor.set_block]
  rw [if_pos hout]

/-- C5: an out-of-bounds `set_block` returns the editor unchanged — it
returns before touching the world buffer, so nothing is materialised and
every stored block is as before. -/
theorem set_block_out_of_bounds_noop (e : WorldEditor) (b : Block) (x y z : Int)
    (wl bl : Option (List Block))
    (hout : x < 0 ∨ x > e.scale_factor_x ∨ z < 0 ∨ z > e.scale_factor_z) :
    e.set_block b x y z wl bl = some e :=
  set_block_oob_eval e b x y z wl bl hout

/-- Witness for C5 at `x = -1`. -/
theorem set_block_out_of_bounds_noop_witness :
    ((-1 : Int) < 0 ∨ (-1 : Int) > 100 ∨ (7 : Int) < 0 ∨ (7 : Int) > 100)
    ∧ (WorldEditor.mk "" ⟨[]⟩ 100 100).set_block ⟨2⟩ (-1) 64 7 none none =
        some (WorldEditor.mk "" ⟨[]⟩ 100 100) :=
  ⟨by decide,
    set_block_out_of_bounds_noop (WorldEditor.mk "" ⟨[]⟩ 100 100) ⟨2⟩ (-1) 64 7
      none none (by decide)⟩

/-- Helper for C8: an in-bounds `set_block` with `y >> 4` in `i8` range
never panics. -/
theorem set_block_in_range_isSome (e : WorldEditor) (b : Block) (x y z : Int)
    (wl bl : Option (List Block))
    (hbound : ¬(x < 0 ∨ x > e.scale_factor_x ∨ z < 0 ∨ z > e.scale_factor_z))
    (hy : -128 ≤ y / 16 ∧ y / 16 ≤ 127) :
    (e.set_block b x y z wl bl).isSome := by
  obtain ⟨existing, hex⟩ :=
    Option.isSome_iff_exists.1 (WorldToModify.get_in_range_isSome e.world hy)
  obtain ⟨w', hset, _⟩ := world_get_after_set e.world x y z b hy
  rcases existing with _ | eb
  · simp only [WorldEditor.set_block]
    rw [if_neg hbound, hex, hset]
    simp
  · rw [set_block_in_bounds_eval e b x y z wl bl hbound eb hex]
    cases hcond : shouldInsertExisting wl bl eb with
    | true =>
      rw [hset]
      simp
    | false => simp

/-- C8: an in-bounds `set_block` panics exactly when `y >> 4` does not fit
in a signed byte, i.e. for `y` outside `[-2048, 2047]`; conversely, for
`y` in that interval all the integer conversions inside `set_block` and
`get_block` are in range and neither operation panics. -/
theorem set_block_panic_iff (e : WorldEditor) (b : Block) (x y z : Int)
    (wl bl : Option (List Block))
    (hx : 0 ≤ x ∧ x ≤ e.scale_factor_x) (hz : 0 ≤ z ∧ z ≤ e.scale_factor_z) :
    (e.set_block b x y z wl bl = none ↔ y < -2048 ∨ 2047 < y)
    ∧ ((-2048 ≤ y ∧ y ≤ 2047) → (e.world.get_block x y z).isSome) := by
  have hbound : ¬(x < 0 ∨ x > e.scale_factor_x ∨ z < 0 ∨ z > e.scale_factor_z) := by
    omega
  constructor
  · constructor
    · intro hnone
      by_contra hy
      have hyr : -128 ≤ y / 16 ∧ y / 16 ≤ 127 := by omega
      have := set_block_in_range_isSome e b x y z wl bl hbound hyr
      rw [hnone] at this
      simp at this
    · intro hy
      have hyr : ¬(-128 ≤ y / 16 ∧ y / 16 ≤ 127) := by omega
      simp only [WorldEditor.set_block]
      rw [if_neg hbound]
      rcases WorldToModify.get_out_of_range e.world hyr with hg | hg
      · rw [hg]
      · rw [hg, WorldToModify.set_out_of_range e.world b hyr]
        rfl
  · intro hy
    exact WorldToModify.get_in_range_isSome e.world (by omega)

/-- Witness for C8 at a fresh editor. -/
theorem set_block_panic_iff_witness :
    ((0 ≤ (5 : Int) ∧ (5 : Int) ≤ 100) ∧ (0 ≤ (7 : Int) ∧ (7 : Int) ≤ 100))
    ∧ (((WorldEditor.mk "" ⟨[]⟩ 100 100).set_block ⟨2⟩ 5 99999 7 none none = none ↔
          (99999 : Int) < -2048 ∨ (2047 : Int) < 99999)
        ∧ ((-2048 ≤ (99999 : Int) ∧ (99999 : Int) ≤ 2047) →
            ((WorldEditor.mk "" ⟨[]⟩ 100 100).world.get_block 5 99999 7).isSome)) :=
  ⟨⟨by decide, by decide⟩,
    set_block_panic_iff (WorldEditor.mk "" ⟨[]⟩ 100 100) ⟨2⟩ 5 99999 7 none none
      (by decide) (by decide)⟩

/-- C9: `check_for_block` returns `true` iff a non-`AIR` block has been
written at the coordinate and a supplied whitelist contains its id or a
supplied blacklist contains its id (both lists act as match lists); it
returns `false` when no block exists there, and `false` when neither list
is supplied even if a block exists. -/
theorem check_for_block_spec (e : WorldEditor) (x y z : Int)
    (wl bl : Option (List Block)) :
    (∀ eb, e.world.get_block x y z = some (some eb) →
      (e.check_for_block x y z wl bl = some true ↔
        (∃ w, wl = some w ∧ eb.id ∈ w.map Block.id) ∨
          ∃ l, bl = some l ∧ eb.id ∈ l.map Block.id))
    ∧ (e.world.get_block x y z = some none →
        e.check_for_block x y z wl bl = some false)
    ∧ (∀ eb, e.world.get_block x y z = some (some eb) → wl = none → bl = none →
        e.check_for_block x y z wl bl = some false) := by
  refine ⟨fun eb hex => ?_, fun hex => ?_, fun eb hex hwn hbn => ?_⟩
  · simp only [WorldEditor.check_for_block]
    rw [hex]
    rcases wl with _ | w <;> rcases bl with _ | l <;>
      simp [any_id_iff]
  · simp only [WorldEditor.check_for_block]
    rw [hex]
  · subst hwn
    subst hbn
    simp only [WorldEditor.check_for_block]
    rw [hex]
    rfl

/-! ### `set_sign` (C10) -/

theorem ChunkToModify.set_block_other {c : ChunkToModify} {x : Nat} {y : Int} {z : Nat}
    {b : Block} {c' : ChunkToModify} (h : c.set_block x y z b = some c') :
    c'.other = c.other := by
  simp only [ChunkToModify.set_block] at h
  split at h
  · injection h with h
    subst h
    rfl
  · simp at h

/-- A successful `WorldToModify::set_block` only rewrites the `sections`
of the touched chunk: every chunk present before is still present, with
its `other` dictionary untouched. -/
theorem WorldToModify.set_preserves_other (w : WorldToModify) (x y z : Int) (b : Block)
    (w' : WorldToModify) (h : w.set_block x y z b = some w')
    (R C : Int × Int) (region : RegionToModify) (c : ChunkToModify)
    (hr : alGet w.regions R = some region)
    (hc : alGet region.chunks C = some c) :
    ∃ region' c', alGet w'.regions R = some region'
      ∧ alGet region'.chunks C = some c'
      ∧ c'.other = c.other := by
  simp only [WorldToModify.set_block] at h
  split at h
  · simp at h
  · rename_i chunk' hcs
    injection h with h
    subst h
    have hother := ChunkToModify.set_block_other hcs
    by_cases hR : (regionCoord (chunkCoord x), regionCoord (chunkCoord z)) = R
    · subst hR
      rw [hr]
      by_cases hC : (chunkCoord x % 32, chunkCoord z % 32) = C
      · subst hC
        refine ⟨_, _, alGet_alPut_same _ _ _, alGet_alPut_same _ _ _, ?_⟩
        rw [hother, hr]
        simp only [Option.getD_some]
        rw [hc]
        rfl
      · refine ⟨_, c, alGet_alPut_same _ _ _, ?_, rfl⟩
        rw [alGet_alPut_ne _ _ _ _ hC]
        simp only [Option.getD_some]
        exact hc
    · refine ⟨region, c, ?_, hc, rfl⟩
      rw [alGet_alPut_ne _ _ _ _ hR]
      exact hr

/-- A `set_block` whose `y` section index fits in a signed byte always
succeeds and keeps every present chunk's `other` dictionary. -/
theorem set_block_keeps_other (e : WorldEditor) (b : Block) (x y z : Int)
    (hy : -128 ≤ y / 16 ∧ y / 16 ≤ 127)
    (region : RegionToModify) (c : ChunkToModify)
    (hr : alGet e.world.regions
      (regionCoord (chunkCoord x), regionCoord (chunkCoord z)) = some region)
    (hc : alGet region.chunks (chunkCoord x % 32, chunkCoord z % 32) = some c) :
    ∃ e', e.set_block b x y z none none = some e'
      ∧ ∃ region' c',
          alGet e'.world.regions
            (regionCoord (chunkCoord x), regionCoord (chunkCoord z)) = some region'
          ∧ alGet region'.chunks (chunkCoord x % 32, chunkCoord z % 32) = some c'
          ∧ c'.other = c.other := by
  by_cases hout : x < 0 ∨ x > e.scale_factor_x ∨ z < 0 ∨ z > e.scale_factor_z
  · exact ⟨e, set_block_oob_eval e b x y z none none hout, region, c, hr, hc, rfl⟩
  · obtain ⟨e', he'⟩ := Option.isSome_iff_exists.1
      (set_block_in_range_isSome e b x y z none none hout hy)
    refine ⟨e', he', ?_⟩
    -- either no write happened (state unchanged) or the world was updated
    simp only [WorldEditor.set_block] at he'
    rw [if_neg hout] at he'
    split at he'
    · simp at he'
    · rename_i existing hex
      split at he'
      · split at he'
        · simp at he'
        · rename_i w' hset
          injection he' with he'
          subst he'
          exact WorldToModify.set_preserves_other e.world x y z b w' hset _ _ region c hr hc
      · injection he' with he'
        subst he'
        exact ⟨region, c, hr, hc, rfl⟩

/-- The chunk buffer `set_sign` targets: the buffer materialised by
`get_or_create_region` / `get_or_create_chunk` for `(x >> 4, z >> 4)`. -/
def signTargetChunk (e : WorldEditor) (x z : Int) : ChunkToModify :=
  (alGet ((alGet e.world.regions (regionCoord (chunkCoord x),
      regionCoord (chunkCoord z))).getD ⟨[]⟩).chunks
    (chunkCoord x % 32, chunkCoord z % 32)).getD ⟨[], []⟩

theorem set_sign_tail (e₂ : WorldEditor) (x y z : Int)
    (hyr : -128 ≤ y / 16 ∧ y / 16 ≤ 127)
    (region₂ : RegionToModify) (c₂ : ChunkToModify) (v : Value)
    (hr : alGet e₂.world.regions
      (regionCoord (chunkCoord x), regionCoord (chunkCoord z)) = some region₂)
    (hc : alGet region₂.chunks (chunkCoord x % 32, chunkCoord z % 32) = some c₂)
    (hv : alGet c₂.other "block_entities" = some v) :
    ∃ e', e₂.set_block SIGN x y z none none = some e'
      ∧ ∃ region chunk,
          alGet e'.world.regions
            (regionCoord (chunkCoord x), regionCoord (chunkCoord z)) = some region
          ∧ alGet region.chunks (chunkCoord x % 32, chunkCoord z % 32) = some chunk
          ∧ alGet chunk.other "block_entities" = some v := by
  obtain ⟨e', hset, region', c', hr', hc', hother⟩ :=
    set_block_keeps_other e₂ SIGN x y z hyr region₂ c₂ hr hc
  exact ⟨e', hset, region', c', hr', hc', by rw [hother]; exact hv⟩

/-- C10: for every coordinate — in bounds or not — `set_sign` materialises
the region and chunk for `(x >> 4, z >> 4)` and appends exactly one sign
block-entity compound to that chunk's `other["block_entities"]` list
(the bounds check and override policy only affect the subsequent
`set_block(SIGN, ..)` call, never the entity append), and the rotation
argument never affects the resulting state.  (`y` must leave the final
`set_block` short of its coordinate-overflow panic for the result to be
observable, and the pre-existing `block_entities` entry is absent or a
list, as it always is for buffers built by this module.) -/
theorem set_sign_spec (e : WorldEditor) (l1 l2 l3 l4 : String) (x y z : Int)
    (rot : Int) (prev : List Value)
    (hy : -2048 ≤ y ∧ y ≤ 2047)
    (hent : (alGet (signTargetChunk e x z).other "block_entities" = none ∧ prev = [])
      ∨ alGet (signTargetChunk e x z).other "block_entities" = some (Value.list prev)) :
    (∀ r r', e.set_sign l1 l2 l3 l4 x y z r = e.set_sign l1 l2 l3 l4 x y z r')
    ∧ ∃ e', e.set_sign l1 l2 l3 l4 x y z rot = some e'
      ∧ ∃ region chunk,
          alGet e'.world.regions
            (regionCoord (chunkCoord x), regionCoord (chunkCoord z)) = some region
          ∧ alGet region.chunks (chunkCoord x % 32, chunkCoord z % 32) = some chunk
          ∧ alGet chunk.other "block_entities" =
              some (Value.list (prev ++ [signEntity l1 l2 l3 l4 x y z])) := by
  have hyr : -128 ≤ y / 16 ∧ y / 16 ≤ 127 := by omega
  refine ⟨fun r r' => rfl, ?_⟩
  simp only [WorldEditor.set_sign]
  simp only [signTargetChunk] at hent
  rcases hent with ⟨hnone, hprev⟩ | hsome
  · subst hprev
    rw [hnone]
    exact set_sign_tail _ x y z hyr _ _ _ (alGet_alPut_same _ _ _)
      (alGet_alPut_same _ _ _) (alGet_alPut_same _ _ _)
  · rw [hsome]
    exact set_sign_tail _ x y z hyr _ _ _ (alGet_alPut_same _ _ _)
      (alGet_alPut_same _ _ _) (alGet_alPut_same _ _ _)

/-- Witness for C10: a fresh editor, out-of-bounds `x`. -/
theorem set_sign_spec_witness :
    ((-2048 ≤ (70 : Int) ∧ (70 : Int) ≤ 2047)
      ∧ ((alGet (signTargetChunk (WorldEditor.mk "" ⟨[]⟩ 100 100) (-5) 10).other
            "block_entities" = none ∧ ([] : List Value) = [])
          ∨ alGet (signTargetChunk (WorldEditor.mk "" ⟨[]⟩ 100 100) (-5) 10).other
              "block_entities" = some (Value.list [])))
    ∧ ((∀ r r', (WorldEditor.mk "" ⟨[]⟩ 100 100).set_sign "a" "b" "c" "d" (-5) 70 10 r =
          (WorldEditor.mk "" ⟨[]⟩ 100 100).set_sign "a" "b" "c" "d" (-5) 70 10 r')
        ∧ ∃ e', (WorldEditor.mk "" ⟨[]⟩ 100 100).set_sign "a" "b" "c" "d" (-5) 70 10 0 =
            some e'
          ∧ ∃ region chunk,
              alGet e'.world.regions
                (regionCoord (chunkCoord (-5)), regionCoord (chunkCoord 10)) = some region
              ∧ alGet region.chunks (chunkCoord (-5) % 32, chunkCoord 10 % 32) = some chunk
              ∧ alGet chunk.other "block_entities" =
                  some (Value.list ([] ++ [signEntity "a" "b" "c" "d" (-5) 70 10]))) :=
  ⟨⟨by decide, Or.inl ⟨rfl, rfl⟩⟩,
    set_sign_spec (WorldEditor.mk "" ⟨[]⟩ 100 100) "a" "b" "c" "d" (-5) 70 10 0 []
      (by decide) (Or.inl ⟨rfl, rfl⟩)⟩
